import Mathlib

/-!
Verification of the Satin priority task scheduler
(`src/main/task_scheduler.py`) against its specification.

The scheduler is embedded shallowly as a small-step transition system:

* `ScheduledTask` mirrors the Python dataclass of the same name.  The
  opaque callable `func` is modelled by `TaskKind`: a plain callable is
  identified by the outcome of invoking it (`FuncOutcome`), and the
  `periodic_wrapper` closure created by `schedule_periodic` is a
  distinguished kind carrying its captured arguments.
* Python object identity matters (the task map, the two queues and the
  workers all alias the same mutable `ScheduledTask` objects), so the
  state keeps a `store : List ScheduledTask` of every object ever
  created, indexed by allocation order; queues and the task map refer
  to objects by index.
* `queue.PriorityQueue` (a binary heap over `(task.priority, task)`
  tuples, where the dataclass compares by `(priority, scheduled_time)`)
  and the `heapq` delay heap (over `(scheduled_time, task)` tuples) are
  modelled as lists kept sorted by the corresponding lexicographic key;
  insertion goes after existing equal keys.  For strictly ordered keys
  this has exactly the pop order of the Python heaps; for fully equal
  keys the Python heap order is unspecified and no theorem below
  depends on it.
* Wall-clock time (`time.time()`) is an integer that only the `tick`
  action advances; every action reads the current clock, matching the
  single monotone clock of the source.
* One `SchedAction` corresponds to one atomic section of the source:
  `submit` to `TaskScheduler.schedule`, `promote` to one drain of the
  due prefix in `_scheduler_loop` (performed under `self.lock`),
  `workerBegin` to a worker dequeuing a task and entering
  `ScheduledTask.run` (which immediately sets RUNNING), `workerFinish`
  to the remainder of `run` together with the `periodic_wrapper`
  rescheduling that happens during the call, `cancel` to
  `TaskScheduler.cancel_task`, and `stop` to clearing `self.running`.
-/

/-- Task status, mirroring the Python `TaskStatus` enum. -/
inductive TaskStatus
  | pending
  | running
  | completed
  | failed
  | cancelled
  deriving DecidableEq, Repr

/-- Outcome of invoking the user-supplied callable: it either returns a
value or raises an exception.  Values and exceptions are both drawn
from `Int`; the scheduler never inspects them. -/
inductive FuncOutcome
  | ok (v : Int)
  | raiseExc (e : Int)
  deriving DecidableEq, Repr

/-- The `func` slot of a task.  `plain` is an ordinary callable,
identified by its invocation outcome.  `periodicWrapper` is the
`periodic_wrapper` closure built by `schedule_periodic`, carrying the
captured `interval`, user-level `priority`, `max_retries` and the inner
callable's outcome. -/
inductive TaskKind
  | plain (outcome : FuncOutcome)
  | periodicWrapper (interval : Int) (userPriority : Int) (maxRetries : Nat)
      (outcome : FuncOutcome)
  deriving DecidableEq, Repr

/-- Mirror of the Python `ScheduledTask` dataclass.  `priority` stores
the negated user priority, exactly as `TaskScheduler.schedule` does
(`priority=-priority`); `result`/`error` start as `None` (`none`). -/
structure ScheduledTask where
  priority : Int
  scheduled_time : Int
  task_id : String
  kind : TaskKind
  status : TaskStatus
  result : Option Int
  error : Option Int
  retries : Nat
  max_retries : Nat
  created_at : Int
  deriving DecidableEq, Repr

/-- What calling the task's `func` does: the wrapper built by
`schedule_periodic` returns `None` on success (its body has no
`return`) and re-raises the inner exception after its `finally`
block. -/
inductive CallOutcome
  | returns (v : Option Int)
  | raises (e : Int)
  deriving DecidableEq, Repr

/-- Invoke the callable of a task. -/
def TaskKind.invoke : TaskKind → CallOutcome
  | .plain (.ok v) => .returns (some v)
  | .plain (.raiseExc e) => .raises e
  | .periodicWrapper _ _ _ (.ok _) => .returns none
  | .periodicWrapper _ _ _ (.raiseExc e) => .raises e

/-- First line of `ScheduledTask.run`: `self.status = TaskStatus.RUNNING`.
This happens unconditionally, whatever the current status is. -/
def ScheduledTask.runStart (t : ScheduledTask) : ScheduledTask :=
  { t with status := .running }

/-- Remainder of `ScheduledTask.run` after the callable returns or
raises: on success store the result and mark COMPLETED; on an exception
store it in `error`, and either increment `retries` and fall back to
PENDING (when `retries < max_retries`) or mark FAILED. -/
def ScheduledTask.runFinish (t : ScheduledTask) : ScheduledTask :=
  match t.kind.invoke with
  | .returns v => { t with result := v, status := .completed }
  | .raises e =>
    let t' := { t with error := some e }
    if t'.retries < t'.max_retries then
      { t' with retries := t'.retries + 1, status := .pending }
    else
      { t' with status := .failed }

/-- Strict lexicographic order on the `(first, second)` comparison keys
used by both Python heaps. -/
def keyLt (a b : Int × Int) : Prop :=
  a.1 < b.1 ∨ (a.1 = b.1 ∧ a.2 < b.2)

instance (a b : Int × Int) : Decidable (keyLt a b) := by
  unfold keyLt
  exact inferInstance

theorem keyLt_asymm {a b : Int × Int} (h : keyLt a b) : ¬ keyLt b a := by
  unfold keyLt at *
  omega

theorem not_keyLt_trans {a b c : Int × Int}
    (hab : ¬ keyLt b a) (hbc : ¬ keyLt c b) : ¬ keyLt c a := by
  unfold keyLt at *
  omega

theorem keyLt_of_keyLt_of_not_keyLt {a b c : Int × Int}
    (hab : keyLt a b) (hcb : ¬ keyLt c b) : keyLt a c := by
  unfold keyLt at *
  omega

/-- Insert into a key-sorted list, after any existing equal keys (the
heap order among strictly ordered keys). -/
def sortedInsert {α : Type} (key : α → Int × Int) (e : α) :
    List α → List α
  | [] => [e]
  | f :: rest =>
    if keyLt (key e) (key f) then e :: f :: rest
    else f :: sortedInsert key e rest

theorem mem_sortedInsert {α : Type} (key : α → Int × Int) (e : α)
    (l : List α) (x : α) :
    x ∈ sortedInsert key e l ↔ x = e ∨ x ∈ l := by
  induction l with
  | nil => simp [sortedInsert]
  | cons f rest ih =>
    unfold sortedInsert
    by_cases h : keyLt (key e) (key f)
    · rw [if_pos h]
      simp only [List.mem_cons]
    · rw [if_neg h]
      simp only [List.mem_cons, ih]
      tauto

theorem sortedInsert_perm {α : Type} (key : α → Int × Int) (e : α)
    (l : List α) : (sortedInsert key e l).Perm (e :: l) := by
  induction l with
  | nil => simp [sortedInsert]
  | cons f rest ih =>
    by_cases h : keyLt (key e) (key f)
    · simp [sortedInsert, h]
    · simp only [sortedInsert, if_neg h]
      exact (ih.cons f).trans (List.Perm.swap e f rest)

/-- Sortedness of a queue: no later element has a strictly smaller key
than an earlier one. -/
def KeySorted {α : Type} (key : α → Int × Int) (l : List α) : Prop :=
  l.Pairwise (fun a b => ¬ keyLt (key b) (key a))

theorem keySorted_sortedInsert {α : Type} (key : α → Int × Int) (e : α)
    {l : List α} (h : KeySorted key l) :
    KeySorted key (sortedInsert key e l) := by
  induction l with
  | nil =>
    simp [sortedInsert, KeySorted]
  | cons f rest ih =>
    rcases List.pairwise_cons.mp h with ⟨hf, hrest⟩
    by_cases hef : keyLt (key e) (key f)
    · simp only [sortedInsert, if_pos hef]
      refine List.pairwise_cons.mpr ⟨?_, h⟩
      intro x hx
      rcases List.mem_cons.mp hx with rfl | hx
      · exact keyLt_asymm hef
      · intro hxe
        exact (hf x hx) (keyLt_of_keyLt_of_not_keyLt hxe (keyLt_asymm hef))
    · simp only [sortedInsert, if_neg hef]
      refine List.pairwise_cons.mpr ⟨?_, ih hrest⟩
      intro x hx
      rcases (mem_sortedInsert key e rest x).mp hx with rfl | hx
      · exact hef
      · exact hf x hx

/-- Entry of the ready queue: the tuple `(task.priority, task)` that
`schedule` / `_scheduler_loop` put into `queue.PriorityQueue`.  `prio`
and `stime` are the (immutable) comparison fields of the task object at
push time; `objId` identifies the task object in the store. -/
structure QEntry where
  prio : Int
  stime : Int
  objId : Nat
  deriving DecidableEq, Repr

/-- Comparison key of a ready-queue entry: tuples compare by the first
component, ties by the dataclass order `(priority, scheduled_time)`,
which collapses to `(priority, scheduled_time)`. -/
def QEntry.key (e : QEntry) : Int × Int := (e.prio, e.stime)

/-- Entry of the delay heap: the tuple `(scheduled_time, task)` that
`schedule` pushes with `heapq.heappush`. -/
structure HeapEntry where
  time : Int
  prio : Int
  objId : Nat
  deriving DecidableEq, Repr

/-- Comparison key of a delay-heap entry: `scheduled_time`, ties by the
dataclass order, which collapses to `(scheduled_time, priority)`. -/
def HeapEntry.key (e : HeapEntry) : Int × Int := (e.time, e.prio)

/-- Update the store at one object index (a Python field mutation on
the aliased object). Out-of-range indices leave the store unchanged. -/
def updStore : List ScheduledTask → Nat → (ScheduledTask → ScheduledTask) →
    List ScheduledTask
  | [], _, _ => []
  | t :: rest, 0, f => f t :: rest
  | t :: rest, o + 1, f => t :: updStore rest o f

theorem updStore_length (store : List ScheduledTask) (o : Nat)
    (f : ScheduledTask → ScheduledTask) :
    (updStore store o f).length = store.length := by
  induction store generalizing o with
  | nil => rfl
  | cons t rest ih =>
    cases o with
    | zero => rfl
    | succ o => simp [updStore, ih]

theorem updStore_get_eq (store : List ScheduledTask) (o : Nat)
    (f : ScheduledTask → ScheduledTask) :
    (updStore store o f).get? o = (store.get? o).map f := by
  induction store generalizing o with
  | nil => cases o <;> rfl
  | cons t rest ih =>
    cases o with
    | zero => rfl
    | succ o => simpa [updStore] using ih o

theorem updStore_get_ne (store : List ScheduledTask) (o o' : Nat)
    (f : ScheduledTask → ScheduledTask) (h : o' ≠ o) :
    (updStore store o f).get? o' = store.get? o' := by
  induction store generalizing o o' with
  | nil => cases o <;> rfl
  | cons t rest ih =>
    cases o with
    | zero =>
      cases o' with
      | zero => exact absurd rfl h
      | succ o' => rfl
    | succ o =>
      cases o' with
      | zero => rfl
      | succ o' =>
        simpa [updStore] using ih o o' (fun hc => h (by omega))

/-- State of one `TaskScheduler` instance plus the wall clock. -/
structure SchedState where
  now : Int
  running : Bool
  store : List ScheduledTask
  taskMap : List (String × Nat)
  readyQueue : List QEntry
  delayHeap : List HeapEntry
  runningTasks : List Nat
  deriving DecidableEq, Repr

/-- Arguments of one `TaskScheduler.schedule` call (after the
`TaskPriority` enum has been converted to its numeric value and a
`task_id` has been chosen). -/
structure SubmitParams where
  task_id : String
  kind : TaskKind
  priority : Int
  delay : Int
  max_retries : Nat
  deriving DecidableEq, Repr

/-- `self.tasks.get(task_id)`: the task map is a cons-list with the
most recent binding first, matching dict overwrite semantics. -/
def lookupTask (s : SchedState) (id : String) : Option Nat :=
  (s.taskMap.find? (fun kv => kv.1 == id)).map (fun kv => kv.2)

/-- The `ScheduledTask` constructed by `TaskScheduler.schedule`:
priority negated, `scheduled_time = now + delay`, `created_at = now`,
status PENDING, empty outcome slots. -/
def newTask (s : SchedState) (p : SubmitParams) : ScheduledTask :=
  { priority := -p.priority
    scheduled_time := s.now + p.delay
    task_id := p.task_id
    kind := p.kind
    status := .pending
    result := none
    error := none
    retries := 0
    max_retries := p.max_retries
    created_at := s.now }

/-- `TaskScheduler.schedule`: build the `ScheduledTask`, record it in
the task map (overwriting any earlier binding of the same id), and put
it either directly into the ready queue (`delay <= 0`) or into the
delay heap. -/
def scheduleStep (s : SchedState) (p : SubmitParams) : SchedState :=
  let t := newTask s p
  let o := s.store.length
  let qe : QEntry := ⟨t.priority, t.scheduled_time, o⟩
  let he : HeapEntry := ⟨t.scheduled_time, t.priority, o⟩
  let s' := { s with store := s.store ++ [t], taskMap := (p.task_id, o) :: s.taskMap }
  if p.delay ≤ 0 then
    { s' with readyQueue := sortedInsert QEntry.key qe s.readyQueue }
  else
    { s' with delayHeap := sortedInsert HeapEntry.key he s.delayHeap }

/-- `TaskScheduler.schedule_periodic`: wrap the callable in a
`periodic_wrapper` closure and schedule its first run after `interval`.
The initial `schedule` call passes `priority` and `task_id` but not
`max_retries` (which therefore defaults to 0), exactly as the source
does. -/
def schedulePeriodic (s : SchedState) (id : String) (interval userPrio : Int)
    (maxr : Nat) (outcome : FuncOutcome) : SchedState :=
  scheduleStep s
    { task_id := id
      kind := .periodicWrapper interval userPrio maxr outcome
      priority := userPrio
      delay := interval
      max_retries := 0 }

/-- `TaskScheduler.cancel_task`: returns `true` and flips the status to
CANCELLED when the task exists and is PENDING; otherwise returns
`false` and changes nothing. -/
def cancelTask (s : SchedState) (id : String) : Bool × SchedState :=
  match lookupTask s id with
  | none => (false, s)
  | some o =>
    match s.store.get? o with
    | none => (false, s)
    | some t =>
      if t.status = .pending then
        (true, { s with store := updStore s.store o (fun t' => { t' with status := .cancelled }) })
      else (false, s)

/-- `TaskScheduler.get_task_status`: `task.status if task else None`. -/
def getTaskStatus (s : SchedState) (id : String) : Option TaskStatus :=
  match lookupTask s id with
  | none => none
  | some o => (s.store.get? o).map (fun t => t.status)

/-- Observable of one iteration of the `get_task_result` polling loop
body, given the map view of the task: an unknown id returns `None`; a
terminal task returns `task.result`, except FAILED with a stored error,
which re-raises it; otherwise the loop keeps waiting. -/
inductive GetResultOutcome
  | ret (v : Option Int)
  | raiseStored (e : Int)
  | timedOut
  | stillWaiting
  deriving DecidableEq, Repr

/-- Decision taken by the body of the `get_task_result` loop on one
poll of the task map. -/
def pollDecision (tv : Option ScheduledTask) : GetResultOutcome :=
  match tv with
  | none => .ret none
  | some t =>
    if t.status = .completed ∨ t.status = .failed ∨ t.status = .cancelled then
      match t.status, t.error with
      | .failed, some e => .raiseStored e
      | _, _ => .ret t.result
    else .stillWaiting

/-- What `get_task_result` does when the task is already settled (or
unknown) at the first poll. -/
def getTaskResultOnce (s : SchedState) (id : String) : GetResultOutcome :=
  pollDecision (match lookupTask s id with
    | none => none
    | some o => s.store.get? o)

/-- The full `get_task_result` polling loop.  `hist i` is the map view
of the task at the `i`-th poll; one poll happens per `time.sleep(0.1)`
period, so the elapsed time at poll `i` is `i` tenths of a second and
the Python check `(time.time() - start_time) > timeout` becomes
`timeout < i` with `timeout` in the same unit.  The terminal check runs
before the deadline check, as in the source.  `fuel` bounds the number
of polls modelled; `stillWaiting` means the loop was still blocked. -/
def getResultAux (hist : Nat → Option ScheduledTask)
    (timeout : Option Nat) : Nat → Nat → GetResultOutcome
  | 0, _ => .stillWaiting
  | fuel + 1, i =>
    match pollDecision (hist i) with
    | .stillWaiting =>
      if (match timeout with | some T => decide (T < i) | none => false) then
        .timedOut
      else getResultAux hist timeout fuel (i + 1)
    | r => r

/-- The due-task drain of one `_scheduler_loop` iteration: pop the heap
while its head is due, pushing each popped task whose status is still
PENDING into the ready queue with key `(task.priority, task)`. -/
def promoteLoop (store : List ScheduledTask) (now : Int) :
    List HeapEntry → List QEntry → List HeapEntry × List QEntry
  | [], q => ([], q)
  | e :: rest, q =>
    if e.time ≤ now then
      if (store.get? e.objId).map (fun t => t.status) = some TaskStatus.pending then
        promoteLoop store now rest (sortedInsert QEntry.key ⟨e.prio, e.time, e.objId⟩ q)
      else promoteLoop store now rest q
    else (e :: rest, q)

/-- A worker dequeues the lowest entry of the ready queue and enters
`ScheduledTask.run`, whose first statement sets the status to RUNNING
unconditionally (there is no cancellation check in `_worker_loop`). -/
def workerBegin (s : SchedState) : SchedState :=
  match s.readyQueue with
  | [] => s
  | e :: rest =>
    { s with readyQueue := rest,
             store := updStore s.store e.objId ScheduledTask.runStart,
             runningTasks := e.objId :: s.runningTasks }

/-- The `finally` block of `periodic_wrapper`: re-submit the same
`task_id` with `delay=interval` while the scheduler is running,
overwriting the task-map entry.  A plain callable re-submits nothing. -/
def periodicResubmit (s : SchedState) (t : ScheduledTask) : SchedState :=
  match t.kind with
  | .periodicWrapper interval prio maxr outcome =>
    if s.running then
      scheduleStep s
        { task_id := t.task_id
          kind := .periodicWrapper interval prio maxr outcome
          priority := prio
          delay := interval
          max_retries := maxr }
    else s
  | .plain _ => s

/-- The callable of the claimed task `o` returns or raises and
`ScheduledTask.run` finishes.  If the callable is a `periodic_wrapper`,
the re-submission of its `finally` block happens during the call,
before `run` updates the old object.  The worker ignores `run`'s
outcome (`_worker_loop` merely prints on exception) and never
re-inserts a retrying task. -/
def workerFinish (s : SchedState) (o : Nat) : SchedState :=
  if o ∈ s.runningTasks then
    match s.store.get? o with
    | none => s
    | some t =>
      let s1 := periodicResubmit s t
      { s1 with store := updStore s1.store o ScheduledTask.runFinish,
                runningTasks := s.runningTasks.erase o }
  else s

/-- One atomic action of the concurrent system. -/
inductive SchedAction
  | tick (d : Nat)
  | submit (p : SubmitParams)
  | submitPeriodic (id : String) (interval userPrio : Int) (maxr : Nat)
      (outcome : FuncOutcome)
  | cancel (id : String)
  | promote
  | workerBegin
  | workerFinish (o : Nat)
  | stop
  deriving DecidableEq, Repr

/-- Small-step interpreter.  `promote` and `workerBegin` are gated on
`self.running`, since `_scheduler_loop` and `_worker_loop` only iterate
while it holds. -/
def step (s : SchedState) : SchedAction → SchedState
  | .tick d => { s with now := s.now + d }
  | .submit p => scheduleStep s p
  | .submitPeriodic id interval prio maxr out =>
    schedulePeriodic s id interval prio maxr out
  | .cancel id => (cancelTask s id).2
  | .promote =>
    if s.running then
      let hq := promoteLoop s.store s.now s.delayHeap s.readyQueue
      { s with delayHeap := hq.1, readyQueue := hq.2 }
    else s
  | .workerBegin => if s.running then workerBegin s else s
  | .workerFinish o => workerFinish s o
  | .stop => { s with running := false }

/-- A freshly started scheduler with an empty task map. -/
def initState : SchedState :=
  { now := 0
    running := true
    store := []
    taskMap := []
    readyQueue := []
    delayHeap := []
    runningTasks := [] }

/-- Run a sequence of actions from the freshly started scheduler. -/
def runTrace (tr : List SchedAction) : SchedState :=
  tr.foldl step initState

theorem get?_append_of_some {α : Type} {l l' : List α} {o : Nat} {a : α}
    (h : l.get? o = some a) : (l ++ l').get? o = some a := by
  induction l generalizing o with
  | nil => cases o <;> simp at h
  | cons x rest ih =>
    cases o with
    | zero => simpa using h
    | succ o => simpa using ih (by simpa using h)

theorem get?_append_cases {α : Type} {l : List α} {x : α} {o : Nat} {a : α}
    (h : (l ++ [x]).get? o = some a) :
    l.get? o = some a ∨ (o = l.length ∧ a = x) := by
  induction l generalizing o with
  | nil =>
    cases o with
    | zero => simp at h; simp [h]
    | succ o => cases o <;> simp at h
  | cons y rest ih =>
    cases o with
    | zero => simp at h; simp [h]
    | succ o =>
      rcases ih (by simpa using h) with h' | ⟨h1, h2⟩
      · exact Or.inl (by simpa using h')
      · exact Or.inr ⟨by simpa using h1, h2⟩

theorem get?_lt_length {α : Type} {l : List α} {o : Nat} {a : α}
    (h : l.get? o = some a) : o < l.length :=
  (List.get?_eq_some.mp h).1

theorem get?_concat_self {α : Type} (l : List α) (x : α) :
    (l ++ [x]).get? l.length = some x := by
  induction l with
  | nil => rfl
  | cons y rest ih => simpa using ih

theorem nodup_of_perm_of_nodup {α : Type} {l l' : List α}
    (hp : l.Perm l') (hn : l'.Nodup) : l.Nodup :=
  hp.nodup_iff.mpr hn

theorem sortedInsert_map_perm {α β : Type} (key : α → Int × Int) (e : α)
    (l : List α) (f : α → β) :
    ((sortedInsert key e l).map f).Perm (f e :: l.map f) :=
  (sortedInsert_perm key e l).map f

/-- Object indices referenced by the ready queue, the delay heap and
the workers, in that order. -/
def liveIds (s : SchedState) : List Nat :=
  s.readyQueue.map QEntry.objId ++ s.delayHeap.map HeapEntry.objId ++ s.runningTasks

/-- Consistency of a ready-queue entry with the store: it was pushed
with the task's own comparison fields, the task has not been claimed by
a worker since (only a `cancel` may have touched it), and it was due at
push time. -/
def QEntryOk (store : List ScheduledTask) (now : Int) (e : QEntry) : Prop :=
  ∃ t, store.get? e.objId = some t ∧ t.priority = e.prio ∧
    t.scheduled_time = e.stime ∧
    (t.status = .pending ∨ t.status = .cancelled) ∧
    t.result = none ∧ t.error = none ∧ e.stime ≤ now

/-- Consistency of a delay-heap entry with the store. -/
def HEntryOk (store : List ScheduledTask) (e : HeapEntry) : Prop :=
  ∃ t, store.get? e.objId = some t ∧ t.priority = e.prio ∧
    t.scheduled_time = e.time ∧
    (t.status = .pending ∨ t.status = .cancelled) ∧
    t.result = none ∧ t.error = none

/-- Consistency of a claimed task: RUNNING, outcome slots still empty,
and its scheduled time has passed. -/
def RunOk (store : List ScheduledTask) (now : Int) (o : Nat) : Prop :=
  ∃ t, store.get? o = some t ∧ t.status = .running ∧
    t.result = none ∧ t.error = none ∧ t.scheduled_time ≤ now

/-- Global state invariant of the scheduler, established at `initState`
and preserved by every action. -/
structure SchedInv (s : SchedState) : Prop where
  qsorted : KeySorted QEntry.key s.readyQueue
  qok : ∀ e ∈ s.readyQueue, QEntryOk s.store s.now e
  hok : ∀ e ∈ s.delayHeap, HEntryOk s.store e
  rok : ∀ o ∈ s.runningTasks, RunOk s.store s.now o
  started : ∀ o t, s.store.get? o = some t →
    (t.status = .running ∨ t.status = .completed ∨ t.status = .failed) →
    t.scheduled_time ≤ s.now
  slots : ∀ o t, s.store.get? o = some t →
    (t.result ≠ none → t.status = .completed) ∧
    (t.status = .failed → t.error ≠ none) ∧
    (t.error ≠ none →
      t.status = .pending ∨ t.status = .failed ∨ t.status = .cancelled)
  nodup : (liveIds s).Nodup

theorem inv_initState : SchedInv initState := by
  constructor <;> simp [initState, liveIds, KeySorted]

theorem inv_tick {s : SchedState} (h : SchedInv s) (d : Nat) :
    SchedInv (step s (.tick d)) := by
  obtain ⟨hqs, hq, hh, hr, hst, hsl, hnd⟩ := h
  refine ⟨hqs, ?_, hh, ?_, ?_, hsl, hnd⟩
  · intro e he
    obtain ⟨t, h1, h2, h3, h4, h5, h6, h7⟩ := hq e he
    exact ⟨t, h1, h2, h3, h4, h5, h6, by simp [step]; omega⟩
  · intro o ho
    obtain ⟨t, h1, h2, h3, h4, h5⟩ := hr o ho
    exact ⟨t, h1, h2, h3, h4, by simp [step]; omega⟩
  · intro o t h1 h2
    have := hst o t h1 h2
    simp [step]
    omega

theorem inv_stop {s : SchedState} (h : SchedInv s) : SchedInv (step s .stop) := by
  obtain ⟨hqs, hq, hh, hr, hst, hsl, hnd⟩ := h
  exact ⟨hqs, hq, hh, hr, hst, hsl, hnd⟩

theorem scheduleStep_ready (s : SchedState) (p : SubmitParams)
    (hd : p.delay ≤ 0) :
    scheduleStep s p = { s with
      store := s.store ++ [newTask s p],
      taskMap := (p.task_id, s.store.length) :: s.taskMap,
      readyQueue := sortedInsert QEntry.key
        ⟨-p.priority, s.now + p.delay, s.store.length⟩ s.readyQueue } := by
  simp [scheduleStep, hd, newTask]

theorem scheduleStep_delayed (s : SchedState) (p : SubmitParams)
    (hd : ¬ p.delay ≤ 0) :
    scheduleStep s p = { s with
      store := s.store ++ [newTask s p],
      taskMap := (p.task_id, s.store.length) :: s.taskMap,
      delayHeap := sortedInsert HeapEntry.key
        ⟨s.now + p.delay, -p.priority, s.store.length⟩ s.delayHeap } := by
  simp [scheduleStep, hd, newTask]

theorem fresh_not_mem_liveIds {s : SchedState} (h : SchedInv s) :
    s.store.length ∉ liveIds s := by
  intro hmem
  have hlt : s.store.length < s.store.length := by
    rcases List.mem_append.mp hmem with hm | hm
    · rcases List.mem_append.mp hm with hm | hm
      · rcases List.mem_map.mp hm with ⟨e, he, heq⟩
        obtain ⟨t, h1, -⟩ := h.qok e he
        rw [heq] at h1
        exact get?_lt_length h1
      · rcases List.mem_map.mp hm with ⟨e, he, heq⟩
        obtain ⟨t, h1, -⟩ := h.hok e he
        rw [heq] at h1
        exact get?_lt_length h1
    · obtain ⟨t, h1, -⟩ := h.rok _ hm
      exact get?_lt_length h1
  omega

theorem liveIds_perm_qInsert (qe : QEntry) (q : List QEntry)
    (H R : List Nat) :
    ((sortedInsert QEntry.key qe q).map QEntry.objId ++ H ++ R).Perm
      (qe.objId :: (q.map QEntry.objId ++ H ++ R)) :=
  ((sortedInsert_map_perm QEntry.key qe q QEntry.objId).append_right H).append_right R

theorem liveIds_perm_hInsert (he : HeapEntry) (h : List HeapEntry)
    (Q R : List Nat) :
    (Q ++ (sortedInsert HeapEntry.key he h).map HeapEntry.objId ++ R).Perm
      (he.objId :: (Q ++ h.map HeapEntry.objId ++ R)) := by
  have h1 : (Q ++ (sortedInsert HeapEntry.key he h).map HeapEntry.objId).Perm
      (he.objId :: (Q ++ h.map HeapEntry.objId)) :=
    ((sortedInsert_map_perm HeapEntry.key he h HeapEntry.objId).append_left Q).trans
      List.perm_middle
  exact h1.append_right R

theorem liveIds_perm_popPush (x : Nat) (Q H R : List Nat) :
    (Q ++ H ++ (x :: R)).Perm (x :: (Q ++ H ++ R)) :=
  List.perm_middle

theorem inv_scheduleStep {s : SchedState} (h : SchedInv s)
    (p : SubmitParams) : SchedInv (scheduleStep s p) := by
  obtain ⟨hqs, hq, hh, hr, hst, hsl, hnd⟩ := h
  have hfresh := fresh_not_mem_liveIds (s := s) ⟨hqs, hq, hh, hr, hst, hsl, hnd⟩
  by_cases hd : p.delay ≤ 0
  · rw [scheduleStep_ready s p hd]
    constructor
    · exact keySorted_sortedInsert QEntry.key _ hqs
    · intro e he
      rcases (mem_sortedInsert QEntry.key _ s.readyQueue e).mp he with rfl | he
    
      · exact ⟨newTask s p, get?_concat_self s.store (newTask s p), rfl, rfl,
          Or.inl rfl, rfl, rfl, by simp; omega⟩
      · obtain ⟨t, h1, h2, h3, h4, h5, h6, h7⟩ := hq e he
        exact ⟨t, get?_append_of_some h1, h2, h3, h4, h5, h6, h7⟩
    · intro e he
      obtain ⟨t, h1, h2, h3, h4, h5, h6⟩ := hh e he
      exact ⟨t, get?_append_of_some h1, h2, h3, h4, h5, h6⟩
    · intro o ho
      obtain ⟨t, h1, h2, h3, h4, h5⟩ := hr o ho
      exact ⟨t, get?_append_of_some h1, h2, h3, h4, h5⟩
    · intro o t h1 h2
      rcases get?_append_cases h1 with h1 | ⟨-, rfl⟩
      · exact hst o t h1 h2
      · simp [newTask] at h2
    · intro o t h1
      rcases get?_append_cases h1 with h1 | ⟨-, rfl⟩
      · exact hsl o t h1
      · refine ⟨?_, ?_, ?_⟩ <;> simp [newTask]
    · exact nodup_of_perm_of_nodup
        (liveIds_perm_qInsert _ s.readyQueue _ s.runningTasks)
        (List.nodup_cons.mpr ⟨hfresh, hnd⟩)
  · rw [scheduleStep_delayed s p hd]
    constructor
    · exact hqs
    · intro e he
      obtain ⟨t, h1, h2, h3, h4, h5, h6, h7⟩ := hq e he
      exact ⟨t, get?_append_of_some h1, h2, h3, h4, h5, h6, h7⟩
    · intro e he
      rcases (mem_sortedInsert HeapEntry.key _ s.delayHeap e).mp he with rfl | he
      · exact ⟨newTask s p, get?_concat_self s.store (newTask s p), rfl, rfl,
          Or.inl rfl, rfl, rfl⟩
      · obtain ⟨t, h1, h2, h3, h4, h5, h6⟩ := hh e he
        exact ⟨t, get?_append_of_some h1, h2, h3, h4, h5, h6⟩
    · intro o ho
      obtain ⟨t, h1, h2, h3, h4, h5⟩ := hr o ho
      exact ⟨t, get?_append_of_some h1, h2, h3, h4, h5⟩
    · intro o t h1 h2
      rcases get?_append_cases h1 with h1 | ⟨-, rfl⟩
      · exact hst o t h1 h2
      · simp [newTask] at h2
    · intro o t h1
      rcases get?_append_cases h1 with h1 | ⟨-, rfl⟩
      · exact hsl o t h1
      · refine ⟨?_, ?_, ?_⟩ <;> simp [newTask]
    · exact nodup_of_perm_of_nodup
        (liveIds_perm_hInsert _ s.delayHeap _ s.runningTasks)
        (List.nodup_cons.mpr ⟨hfresh, hnd⟩)

theorem cancelTask_found (s : SchedState) (id : String) (o : Nat)
    (t : ScheduledTask) (hl : lookupTask s id = some o)
    (hg : s.store.get? o = some t) (hp : t.status = TaskStatus.pending) :
    cancelTask s id =
      (true, { s with
        store := updStore s.store o (fun t' => { t' with status := .cancelled }) }) := by
  simp only [cancelTask, hl, hg, hp, if_pos]

theorem cancelTask_notPending (s : SchedState) (id : String) (o : Nat)
    (t : ScheduledTask) (hl : lookupTask s id = some o)
    (hg : s.store.get? o = some t) (hp : t.status ≠ TaskStatus.pending) :
    cancelTask s id = (false, s) := by
  simp only [cancelTask, hl, hg]
  rw [if_neg hp]

theorem cancelTask_noTask (s : SchedState) (id : String)
    (hl : lookupTask s id = none) : cancelTask s id = (false, s) := by
  simp only [cancelTask, hl]

theorem cancelTask_badIndex (s : SchedState) (id : String) (o : Nat)
    (hl : lookupTask s id = some o) (hg : s.store.get? o = none) :
    cancelTask s id = (false, s) := by
  simp only [cancelTask, hl, hg]

theorem inv_cancel {s : SchedState} (h : SchedInv s) (id : String) :
    SchedInv (step s (.cancel id)) := by
  show SchedInv (cancelTask s id).2
  cases hl : lookupTask s id with
  | none => rw [cancelTask_noTask s id hl]; exact h
  | some o =>
    cases hg : s.store.get? o with
    | none => rw [cancelTask_badIndex s id o hl hg]; exact h
    | some t =>
      by_cases hp : t.status = TaskStatus.pending
      · rw [cancelTask_found s id o t hl hg hp]
        obtain ⟨hqs, hq, hh, hr, hst, hsl, hnd⟩ := h
        have htres : t.result = none := by
          by_contra hres
          have := (hsl o t hg).1 hres
          rw [hp] at this
          cases this
        constructor
        · exact hqs
        · intro e he
          obtain ⟨u, h1, h2, h3, h4, h5, h6, h7⟩ := hq e he
          by_cases heo : e.objId = o
          · subst heo
            rw [hg] at h1
            cases h1
            refine ⟨{ t with status := .cancelled }, ?_, h2, h3, Or.inr rfl, h5, h6, h7⟩
            rw [updStore_get_eq, hg]
            rfl
          · exact ⟨u, by rw [updStore_get_ne _ _ _ _ heo]; exact h1,
              h2, h3, h4, h5, h6, h7⟩
        · intro e he
          obtain ⟨u, h1, h2, h3, h4, h5, h6⟩ := hh e he
          by_cases heo : e.objId = o
          · subst heo
            rw [hg] at h1
            cases h1
            refine ⟨{ t with status := .cancelled }, ?_, h2, h3, Or.inr rfl, h5, h6⟩
            rw [updStore_get_eq, hg]
            rfl
          · exact ⟨u, by rw [updStore_get_ne _ _ _ _ heo]; exact h1,
              h2, h3, h4, h5, h6⟩
        · intro o' ho'
          obtain ⟨u, h1, h2, h3, h4, h5⟩ := hr o' ho'
          by_cases heo : o' = o
          · subst heo
            rw [hg] at h1
            cases h1
            rw [hp] at h2
            cases h2
          · exact ⟨u, by rw [updStore_get_ne _ _ _ _ heo]; exact h1,
              h2, h3, h4, h5⟩
        · intro o' t' h1 h2
          by_cases heo : o' = o
          · subst heo
            rw [updStore_get_eq, hg] at h1
            cases h1
            rcases h2 with h2 | h2 | h2 <;> cases h2
          · rw [updStore_get_ne _ _ _ _ heo] at h1
            exact hst o' t' h1 h2
        · intro o' t' h1
          by_cases heo : o' = o
          · subst heo
            rw [updStore_get_eq, hg] at h1
            cases h1
            refine ⟨?_, ?_, ?_⟩
            · intro hres
              exact absurd htres hres
            · intro h2
              cases h2
            · intro _
              exact Or.inr (Or.inr rfl)
          · rw [updStore_get_ne _ _ _ _ heo] at h1
            exact hsl o' t' h1
        · exact hnd
      · rw [cancelTask_notPending s id o t hl hg hp]
        exact h

theorem inv_workerBegin {s : SchedState} (h : SchedInv s) :
    SchedInv (step s .workerBegin) := by
  show SchedInv (if s.running then workerBegin s else s)
  by_cases hrun : s.running
  · rw [if_pos hrun]
    unfold workerBegin
    cases hq0 : s.readyQueue with
    | nil => exact h
    | cons e rest =>
      obtain ⟨hqs, hq, hh, hr, hst, hsl, hnd⟩ := h
      rw [hq0] at hqs hq
      obtain ⟨t, h1, h2, h3, h4, h5, h6, h7⟩ := hq e (List.mem_cons_self e rest)
      have hnd' : (e.objId :: (rest.map QEntry.objId ++ s.delayHeap.map HeapEntry.objId
          ++ s.runningTasks)).Nodup := by
        simpa [liveIds, hq0] using hnd
      have hfresh : e.objId ∉ rest.map QEntry.objId ++ s.delayHeap.map HeapEntry.objId
          ++ s.runningTasks := (List.nodup_cons.mp hnd').1
      have hndrest := (List.nodup_cons.mp hnd').2
      constructor
      · exact (List.pairwise_cons.mp hqs).2
      · intro e' he'
        obtain ⟨u, g1, g2, g3, g4, g5, g6, g7⟩ := hq e' (List.mem_cons_of_mem e he')
        have hne : e'.objId ≠ e.objId := by
          intro hc
          exact hfresh (by
            rw [← hc]
            exact List.mem_append_left _ (List.mem_append_left _
              (List.mem_map_of_mem QEntry.objId he')))
        exact ⟨u, by rw [updStore_get_ne _ _ _ _ hne]; exact g1, g2, g3, g4, g5, g6, g7⟩
      · intro e' he'
        obtain ⟨u, g1, g2, g3, g4, g5, g6⟩ := hh e' he'
        have hne : e'.objId ≠ e.objId := by
          intro hc
          exact hfresh (by
            rw [← hc]
            exact List.mem_append_left _ (List.mem_append_right _
              (List.mem_map_of_mem HeapEntry.objId he')))
        exact ⟨u, by rw [updStore_get_ne _ _ _ _ hne]; exact g1, g2, g3, g4, g5, g6⟩
      · intro o' ho'
        rcases List.mem_cons.mp ho' with rfl | ho'
        · refine ⟨ScheduledTask.runStart t, ?_, rfl, h5, h6, ?_⟩
          · rw [updStore_get_eq, h1]
            rfl
          · show t.scheduled_time ≤ s.now
            omega
        · obtain ⟨u, g1, g2, g3, g4, g5⟩ := hr o' ho'
          have hne : o' ≠ e.objId := by
            intro hc
            exact hfresh (by
              rw [← hc]
              exact List.mem_append_right _ ho')
          exact ⟨u, by rw [updStore_get_ne _ _ _ _ hne]; exact g1, g2, g3, g4, g5⟩
      · intro o' t' g1 g2
        by_cases hne : o' = e.objId
        · subst hne
          rw [updStore_get_eq, h1] at g1
          cases g1
          show t.scheduled_time ≤ s.now
          omega
        · rw [updStore_get_ne _ _ _ _ hne] at g1
          exact hst o' t' g1 g2
      · intro o' t' g1
        by_cases hne : o' = e.objId
        · subst hne
          rw [updStore_get_eq, h1] at g1
          cases g1
          refine ⟨?_, ?_, ?_⟩
          · intro hres
            exact absurd h5 hres
          · intro hc
            cases hc
          · intro herr
            exact absurd h6 herr
        · rw [updStore_get_ne _ _ _ _ hne] at g1
          exact hsl o' t' g1
      · exact nodup_of_perm_of_nodup
          (liveIds_perm_popPush e.objId (rest.map QEntry.objId)
            (s.delayHeap.map HeapEntry.objId) s.runningTasks) hnd'
  · rw [if_neg hrun]
    exact h

theorem promoteLoop_cons_due_pending (store : List ScheduledTask) (now : Int)
    (e : HeapEntry) (rest : List HeapEntry) (q : List QEntry)
    (hdue : e.time ≤ now)
    (hpend : (store.get? e.objId).map (fun t => t.status) = some TaskStatus.pending) :
    promoteLoop store now (e :: rest) q =
      promoteLoop store now rest (sortedInsert QEntry.key ⟨e.prio, e.time, e.objId⟩ q) := by
  simp only [promoteLoop, if_pos hdue, if_pos hpend]

theorem promoteLoop_cons_due_notPending (store : List ScheduledTask) (now : Int)
    (e : HeapEntry) (rest : List HeapEntry) (q : List QEntry)
    (hdue : e.time ≤ now)
    (hpend : ¬ (store.get? e.objId).map (fun t => t.status) = some TaskStatus.pending) :
    promoteLoop store now (e :: rest) q = promoteLoop store now rest q := by
  simp only [promoteLoop, if_pos hdue]
  rw [if_neg hpend]

theorem promoteLoop_cons_notDue (store : List ScheduledTask) (now : Int)
    (e : HeapEntry) (rest : List HeapEntry) (q : List QEntry)
    (hdue : ¬ e.time ≤ now) :
    promoteLoop store now (e :: rest) q = (e :: rest, q) := by
  simp only [promoteLoop]
  rw [if_neg hdue]

theorem promoteLoop_spec (store : List ScheduledTask) (now : Int)
    (h : List HeapEntry) :
    ∀ (q : List QEntry) (R : List Nat),
    (∀ e ∈ h, HEntryOk store e) →
    (∀ e ∈ q, QEntryOk store now e) →
    KeySorted QEntry.key q →
    (q.map QEntry.objId ++ h.map HeapEntry.objId ++ R).Nodup →
    (∀ e ∈ (promoteLoop store now h q).1, HEntryOk store e) ∧
    (∀ e ∈ (promoteLoop store now h q).2, QEntryOk store now e) ∧
    KeySorted QEntry.key (promoteLoop store now h q).2 ∧
    ((promoteLoop store now h q).2.map QEntry.objId ++
      (promoteLoop store now h q).1.map HeapEntry.objId ++ R).Nodup := by
  induction h with
  | nil =>
    intro q R hh hq hqs hnd
    refine ⟨?_, ?_, ?_, ?_⟩ <;> simp only [promoteLoop]
    · intro e he
      cases he
    · exact hq
    · exact hqs
    · simpa using hnd
  | cons e rest ih =>
    intro q R hh hq hqs hnd
    have hmid : (q.map QEntry.objId ++ (e.objId :: rest.map HeapEntry.objId) ++ R).Perm
        (e.objId :: (q.map QEntry.objId ++ rest.map HeapEntry.objId ++ R)) :=
      List.Perm.append_right R List.perm_middle
    by_cases hdue : e.time ≤ now
    · by_cases hpend :
        (store.get? e.objId).map (fun t => t.status) = some TaskStatus.pending
      · rw [promoteLoop_cons_due_pending store now e rest q hdue hpend]
        have hnew : QEntryOk store now ⟨e.prio, e.time, e.objId⟩ := by
          obtain ⟨t, h1, h2, h3, h4, h5, h6⟩ := hh e (List.mem_cons_self e rest)
          rw [h1] at hpend
          refine ⟨t, h1, h2, h3, Or.inl ?_, h5, h6, hdue⟩
          simpa using hpend
        have hndc : (e.objId :: (q.map QEntry.objId ++ rest.map HeapEntry.objId ++ R)).Nodup :=
          nodup_of_perm_of_nodup hmid.symm (by simpa using hnd)
        refine ih (sortedInsert QEntry.key ⟨e.prio, e.time, e.objId⟩ q) R
          (fun e' he' => hh e' (List.mem_cons_of_mem e he')) ?_
          (keySorted_sortedInsert QEntry.key _ hqs) ?_
        · intro e' he'
          rcases (mem_sortedInsert QEntry.key _ q e').mp he' with rfl | he'
          · exact hnew
          · exact hq e' he'
        · exact nodup_of_perm_of_nodup
            (liveIds_perm_qInsert ⟨e.prio, e.time, e.objId⟩ q
              (rest.map HeapEntry.objId) R) hndc
      · rw [promoteLoop_cons_due_notPending store now e rest q hdue hpend]
        have hsub : (q.map QEntry.objId ++ rest.map HeapEntry.objId ++ R).Sublist
            (q.map QEntry.objId ++ (e.objId :: rest.map HeapEntry.objId) ++ R) :=
          ((List.sublist_cons_self e.objId (rest.map HeapEntry.objId)).append_left
            (q.map QEntry.objId)).append_right R
        exact ih q R (fun e' he' => hh e' (List.mem_cons_of_mem e he')) hq hqs
          ((by simpa using hnd : (q.map QEntry.objId ++
            (e.objId :: rest.map HeapEntry.objId) ++ R).Nodup).sublist hsub)
    · rw [promoteLoop_cons_notDue store now e rest q hdue]
      exact ⟨hh, hq, hqs, by simpa using hnd⟩

theorem inv_promote {s : SchedState} (h : SchedInv s) :
    SchedInv (step s .promote) := by
  show SchedInv (if s.running then _ else s)
  by_cases hrun : s.running
  · rw [if_pos hrun]
    obtain ⟨hqs, hq, hh, hr, hst, hsl, hnd⟩ := h
    obtain ⟨g1, g2, g3, g4⟩ := promoteLoop_spec s.store s.now s.delayHeap
      s.readyQueue s.runningTasks hh hq hqs (by simpa [liveIds] using hnd)
    exact ⟨g3, g2, g1, hr, hst, hsl, by simpa [liveIds] using g4⟩
  · rw [if_neg hrun]
    exact h

theorem periodicResubmit_runningTasks (s : SchedState) (t : ScheduledTask) :
    (periodicResubmit s t).runningTasks = s.runningTasks := by
  cases ht : t.kind with
  | plain out => simp only [periodicResubmit, ht]
  | periodicWrapper i pr mr out =>
    simp only [periodicResubmit, ht]
    by_cases hrun : s.running
    · rw [if_pos hrun]
      by_cases hd : (i : Int) ≤ 0
      · rw [scheduleStep_ready _ _ hd]
      · rw [scheduleStep_delayed _ _ hd]
    · rw [if_neg hrun]

theorem inv_periodicResubmit {s : SchedState} (h : SchedInv s)
    (t : ScheduledTask) : SchedInv (periodicResubmit s t) := by
  cases ht : t.kind with
  | plain out =>
    simp only [periodicResubmit, ht]
    exact h
  | periodicWrapper i pr mr out =>
    simp only [periodicResubmit, ht]
    by_cases hrun : s.running
    · rw [if_pos hrun]
      exact inv_scheduleStep h _
    · rw [if_neg hrun]
      exact h

theorem workerFinish_notClaimed (s : SchedState) (o : Nat)
    (ho : o ∉ s.runningTasks) : workerFinish s o = s := by
  unfold workerFinish
  rw [if_neg ho]

theorem workerFinish_noTask (s : SchedState) (o : Nat)
    (ho : o ∈ s.runningTasks) (hg : s.store.get? o = none) :
    workerFinish s o = s := by
  unfold workerFinish
  rw [if_pos ho, hg]

theorem workerFinish_some (s : SchedState) (o : Nat) (t : ScheduledTask)
    (ho : o ∈ s.runningTasks) (hg : s.store.get? o = some t) :
    workerFinish s o = { periodicResubmit s t with
      store := updStore (periodicResubmit s t).store o ScheduledTask.runFinish,
      runningTasks := (periodicResubmit s t).runningTasks.erase o } := by
  unfold workerFinish
  rw [if_pos ho, hg, periodicResubmit_runningTasks]

theorem inv_finishAt {s1 : SchedState} (h : SchedInv s1) (o : Nat)
    (ho : o ∈ s1.runningTasks) :
    SchedInv { s1 with
      store := updStore s1.store o ScheduledTask.runFinish,
      runningTasks := s1.runningTasks.erase o } := by
  obtain ⟨hqs, hq, hh, hr, hst, hsl, hnd⟩ := h
  obtain ⟨u, hgu, hrunu, hresu, herru, hstu⟩ := hr o ho
  have hnd' := hnd
  rw [liveIds, List.nodup_append] at hnd'
  obtain ⟨hndQH, hndR, hdisj⟩ := hnd'
  have hoQH : o ∉ s1.readyQueue.map QEntry.objId ++ s1.delayHeap.map HeapEntry.objId :=
    fun hmem => hdisj hmem ho
  constructor
  · exact hqs
  · intro e he
    obtain ⟨w, g1, g2, g3, g4, g5, g6, g7⟩ := hq e he
    have hne : e.objId ≠ o := by
      intro hc
      exact hoQH (by
        rw [← hc]
        exact List.mem_append_left _ (List.mem_map_of_mem QEntry.objId he))
    exact ⟨w, by rw [updStore_get_ne _ _ _ _ hne]; exact g1, g2, g3, g4, g5, g6, g7⟩
  · intro e he
    obtain ⟨w, g1, g2, g3, g4, g5, g6⟩ := hh e he
    have hne : e.objId ≠ o := by
      intro hc
      exact hoQH (by
        rw [← hc]
        exact List.mem_append_right _ (List.mem_map_of_mem HeapEntry.objId he))
    exact ⟨w, by rw [updStore_get_ne _ _ _ _ hne]; exact g1, g2, g3, g4, g5, g6⟩
  · intro o' ho'
    have ho'' : o' ≠ o ∧ o' ∈ s1.runningTasks := (List.Nodup.mem_erase_iff hndR).mp ho'
    obtain ⟨w, g1, g2, g3, g4, g5⟩ := hr o' ho''.2
    exact ⟨w, by rw [updStore_get_ne _ _ _ _ ho''.1]; exact g1, g2, g3, g4, g5⟩
  · intro o' t' g1 g2
    by_cases hne : o' = o
    · subst hne
      rw [updStore_get_eq, hgu] at g1
      cases g1
      show (ScheduledTask.runFinish u).scheduled_time ≤ s1.now
      cases hcall : u.kind.invoke with
      | returns v =>
        simp only [ScheduledTask.runFinish, hcall]
        exact hstu
      | raises e =>
        simp only [ScheduledTask.runFinish, hcall]
        by_cases hret : u.retries < u.max_retries
        · rw [if_pos hret]
          exact hstu
        · rw [if_neg hret]
          exact hstu
    · rw [updStore_get_ne _ _ _ _ hne] at g1
      exact hst o' t' g1 g2
  · intro o' t' g1
    by_cases hne : o' = o
    · subst hne
      rw [updStore_get_eq, hgu] at g1
      cases g1
      cases hcall : u.kind.invoke with
      | returns v => simp [ScheduledTask.runFinish, hcall, herru]
      | raises e =>
        by_cases hret : u.retries < u.max_retries
        · simp [ScheduledTask.runFinish, hcall, hret, hresu]
        · simp [ScheduledTask.runFinish, hcall, hret, hresu]
    · rw [updStore_get_ne _ _ _ _ hne] at g1
      exact hsl o' t' g1
  · have hsub : (s1.readyQueue.map QEntry.objId ++ s1.delayHeap.map HeapEntry.objId ++
        s1.runningTasks.erase o).Sublist (liveIds s1) :=
      (List.erase_sublist o s1.runningTasks).append_left _
    exact hnd.sublist hsub

theorem inv_workerFinish {s : SchedState} (h : SchedInv s) (o : Nat) :
    SchedInv (step s (.workerFinish o)) := by
  show SchedInv (workerFinish s o)
  by_cases ho : o ∈ s.runningTasks
  · cases hg : s.store.get? o with
    | none => rw [workerFinish_noTask s o ho hg]; exact h
    | some t =>
      rw [workerFinish_some s o t ho hg]
      have ho1 : o ∈ (periodicResubmit s t).runningTasks := by
        rw [periodicResubmit_runningTasks]
        exact ho
      exact inv_finishAt (inv_periodicResubmit h t) o ho1
  · rw [workerFinish_notClaimed s o ho]
    exact h

theorem inv_step {s : SchedState} (h : SchedInv s) (a : SchedAction) :
    SchedInv (step s a) := by
  cases a with
  | tick d => exact inv_tick h d
  | submit p => exact inv_scheduleStep h p
  | submitPeriodic id interval prio maxr out => exact inv_scheduleStep h _
  | cancel id => exact inv_cancel h id
  | promote => exact inv_promote h
  | workerBegin => exact inv_workerBegin h
  | workerFinish o => exact inv_workerFinish h o
  | stop => exact inv_stop h

theorem inv_foldl {s : SchedState} (h : SchedInv s) (tr : List SchedAction) :
    SchedInv (List.foldl step s tr) := by
  induction tr generalizing s with
  | nil => exact h
  | cons a rest ih => exact ih (inv_step h a)

/-- Every state reachable from a fresh scheduler satisfies the global
invariant. -/
theorem inv_runTrace (tr : List SchedAction) : SchedInv (runTrace tr) :=
  inv_foldl inv_initState tr

/-- No task object in the store is CANCELLED. -/
def NoCancelled (s : SchedState) : Prop :=
  ∀ o t, s.store.get? o = some t → t.status ≠ TaskStatus.cancelled

theorem noCancelled_scheduleStep {s : SchedState} (h : NoCancelled s)
    (p : SubmitParams) : NoCancelled (scheduleStep s p) := by
  intro o t hg
  have hg' : (s.store ++ [newTask s p]).get? o = some t := by
    by_cases hd : p.delay ≤ 0
    · rw [scheduleStep_ready s p hd] at hg
      exact hg
    · rw [scheduleStep_delayed s p hd] at hg
      exact hg
  rcases get?_append_cases hg' with hg'' | ⟨-, rfl⟩
  · exact h o t hg''
  · simp [newTask]

theorem noCancelled_step {s : SchedState} (h : NoCancelled s)
    (a : SchedAction) (ha : ∀ id, a ≠ SchedAction.cancel id) :
    NoCancelled (step s a) := by
  cases a with
  | tick d => exact h
  | stop => exact h
  | submit p => exact noCancelled_scheduleStep h p
  | submitPeriodic id interval prio maxr out => exact noCancelled_scheduleStep h _
  | cancel id => exact absurd rfl (ha id)
  | promote =>
    show NoCancelled (if s.running then _ else s)
    by_cases hrun : s.running
    · rw [if_pos hrun]
      exact h
    · rw [if_neg hrun]
      exact h
  | workerBegin =>
    show NoCancelled (if s.running then workerBegin s else s)
    by_cases hrun : s.running
    · rw [if_pos hrun]
      unfold workerBegin
      cases hq0 : s.readyQueue with
      | nil => exact h
      | cons e rest =>
        intro o t hg
        by_cases hne : o = e.objId
        · subst hne
          rw [updStore_get_eq] at hg
          cases hu : s.store.get? e.objId with
          | none => rw [hu] at hg; cases hg
          | some u =>
            rw [hu] at hg
            cases hg
            simp [ScheduledTask.runStart]
        · rw [updStore_get_ne _ _ _ _ hne] at hg
          exact h o t hg
    · rw [if_neg hrun]
      exact h
  | workerFinish o' =>
    show NoCancelled (workerFinish s o')
    by_cases ho : o' ∈ s.runningTasks
    · cases hg0 : s.store.get? o' with
      | none => rw [workerFinish_noTask s o' ho hg0]; exact h
      | some t0 =>
        rw [workerFinish_some s o' t0 ho hg0]
        have h1 : NoCancelled (periodicResubmit s t0) := by
          cases ht : t0.kind with
          | plain out =>
            simp only [periodicResubmit, ht]
            exact h
          | periodicWrapper i pr mr out =>
            simp only [periodicResubmit, ht]
            by_cases hrun : s.running
            · rw [if_pos hrun]
              exact noCancelled_scheduleStep h _
            · rw [if_neg hrun]
              exact h
        intro o t hg
        by_cases hne : o = o'
        · subst hne
          rw [updStore_get_eq] at hg
          cases hu : (periodicResubmit s t0).store.get? o with
          | none => rw [hu] at hg; cases hg
          | some u =>
            rw [hu] at hg
            cases hg
            cases hcall : u.kind.invoke with
            | returns v => simp [ScheduledTask.runFinish, hcall]
            | raises e =>
              by_cases hret : u.retries < u.max_retries
              · simp [ScheduledTask.runFinish, hcall, hret]
              · simp [ScheduledTask.runFinish, hcall, hret]
        · rw [updStore_get_ne _ _ _ _ hne] at hg
          exact h1 o t hg
    · rw [workerFinish_notClaimed s o' ho]
      exact h

/-- In a trace that never cancels, no reachable task is CANCELLED. -/
theorem noCancelled_runTrace (tr : List SchedAction)
    (h : ∀ id, SchedAction.cancel id ∉ tr) : NoCancelled (runTrace tr) := by
  have main : ∀ (tr' : List SchedAction) (s : SchedState), NoCancelled s →
      (∀ id, SchedAction.cancel id ∉ tr') →
      NoCancelled (List.foldl step s tr') := by
    intro tr'
    induction tr' with
    | nil => intro s hs _; exact hs
    | cons a rest ih =>
      intro s hs hno
      refine ih (step s a) (noCancelled_step hs a ?_) ?_
      · intro id hc
        subst hc
        exact hno id (List.mem_cons_self _ _)
      · intro id hc
        exact hno id (List.mem_cons_of_mem a hc)
  refine main tr initState ?_ h
  intro o t hg
  cases o <;> cases hg

theorem mem_map_sortedInsert {α β : Type} (key : α → Int × Int) (e : α)
    (l : List α) (f : α → β) (x : β) :
    x ∈ (sortedInsert key e l).map f ↔ x = f e ∨ x ∈ l.map f := by
  rw [((sortedInsert_perm key e l).map f).mem_iff]
  simp

theorem promoteLoop_objIds (store : List ScheduledTask) (now : Int)
    (h : List HeapEntry) :
    ∀ (q : List QEntry) (o : Nat),
    o ∉ q.map QEntry.objId → o ∉ h.map HeapEntry.objId →
    o ∉ (promoteLoop store now h q).2.map QEntry.objId ∧
    o ∉ (promoteLoop store now h q).1.map HeapEntry.objId := by
  induction h with
  | nil =>
    intro q o hq hh
    exact ⟨by simpa [promoteLoop] using hq, by simp [promoteLoop]⟩
  | cons e rest ih =>
    intro q o hq hh
    have hne : o ≠ e.objId := by
      intro hc
      exact hh (by
        rw [hc]
        exact List.mem_map_of_mem HeapEntry.objId (List.mem_cons_self e rest))
    have hhrest : o ∉ rest.map HeapEntry.objId := by
      intro hc
      exact hh (by simpa using Or.inr hc)
    by_cases hdue : e.time ≤ now
    · by_cases hpend :
        (store.get? e.objId).map (fun t => t.status) = some TaskStatus.pending
      · rw [promoteLoop_cons_due_pending store now e rest q hdue hpend]
        refine ih _ o ?_ hhrest
        intro hc
        rcases (mem_map_sortedInsert QEntry.key _ q QEntry.objId o).mp hc with hc | hc
        · exact hne hc
        · exact hq hc
      · rw [promoteLoop_cons_due_notPending store now e rest q hdue hpend]
        exact ih q o hq hhrest
    · rw [promoteLoop_cons_notDue store now e rest q hdue]
      exact ⟨hq, by simpa using hh⟩

/-- The object `o` is stranded: still PENDING (or CANCELLED) but in no
queue and claimed by no worker, so no action can ever run it again. -/
def StuckAt (s : SchedState) (o : Nat) : Prop :=
  (∃ t, s.store.get? o = some t ∧
    (t.status = TaskStatus.pending ∨ t.status = TaskStatus.cancelled)) ∧
  o ∉ s.readyQueue.map QEntry.objId ∧
  o ∉ s.delayHeap.map HeapEntry.objId ∧
  o ∉ s.runningTasks

theorem stuckAt_scheduleStep {s : SchedState} {o : Nat}
    (h : StuckAt s o) (p : SubmitParams) : StuckAt (scheduleStep s p) o := by
  obtain ⟨⟨t, hg, hstat⟩, hq, hh, hr⟩ := h
  have holt : o < s.store.length := get?_lt_length hg
  have hofresh : o ≠ s.store.length := by omega
  by_cases hd : p.delay ≤ 0
  · rw [scheduleStep_ready s p hd]
    refine ⟨⟨t, get?_append_of_some hg, hstat⟩, ?_, hh, hr⟩
    intro hc
    rcases (mem_map_sortedInsert QEntry.key _ s.readyQueue QEntry.objId o).mp hc
      with hc | hc
    · exact hofresh hc
    · exact hq hc
  · rw [scheduleStep_delayed s p hd]
    refine ⟨⟨t, get?_append_of_some hg, hstat⟩, hq, ?_, hr⟩
    intro hc
    rcases (mem_map_sortedInsert HeapEntry.key _ s.delayHeap HeapEntry.objId o).mp hc
      with hc | hc
    · exact hofresh hc
    · exact hh hc

theorem stuckAt_step {s : SchedState} {o : Nat} (h : StuckAt s o)
    (a : SchedAction) : StuckAt (step s a) o := by
  obtain ⟨⟨t, hg, hstat⟩, hq, hh, hr⟩ := h
  cases a with
  | tick d => exact ⟨⟨t, hg, hstat⟩, hq, hh, hr⟩
  | stop => exact ⟨⟨t, hg, hstat⟩, hq, hh, hr⟩
  | submit p => exact stuckAt_scheduleStep ⟨⟨t, hg, hstat⟩, hq, hh, hr⟩ p
  | submitPeriodic id interval prio maxr out =>
    exact stuckAt_scheduleStep ⟨⟨t, hg, hstat⟩, hq, hh, hr⟩ _
  | cancel id =>
    show StuckAt (cancelTask s id).2 o
    cases hl : lookupTask s id with
    | none => rw [cancelTask_noTask s id hl]; exact ⟨⟨t, hg, hstat⟩, hq, hh, hr⟩
    | some o2 =>
      cases hg2 : s.store.get? o2 with
      | none =>
        rw [cancelTask_badIndex s id o2 hl hg2]
        exact ⟨⟨t, hg, hstat⟩, hq, hh, hr⟩
      | some t2 =>
        by_cases hp : t2.status = TaskStatus.pending
        · rw [cancelTask_found s id o2 t2 hl hg2 hp]
          refine ⟨?_, hq, hh, hr⟩
          by_cases hne : o = o2
          · subst hne
            refine ⟨{ t2 with status := .cancelled }, ?_, Or.inr rfl⟩
            rw [updStore_get_eq, hg2]
            rfl
          · exact ⟨t, by rw [updStore_get_ne _ _ _ _ hne]; exact hg, hstat⟩
        · rw [cancelTask_notPending s id o2 t2 hl hg2 hp]
          exact ⟨⟨t, hg, hstat⟩, hq, hh, hr⟩
  | promote =>
    show StuckAt (if s.running then _ else s) o
    by_cases hrun : s.running
    · rw [if_pos hrun]
      obtain ⟨hq', hh'⟩ := promoteLoop_objIds s.store s.now s.delayHeap
        s.readyQueue o hq hh
      exact ⟨⟨t, hg, hstat⟩, hq', hh', hr⟩
    · rw [if_neg hrun]
      exact ⟨⟨t, hg, hstat⟩, hq, hh, hr⟩
  | workerBegin =>
    show StuckAt (if s.running then workerBegin s else s) o
    by_cases hrun : s.running
    · rw [if_pos hrun]
      unfold workerBegin
      cases hq0 : s.readyQueue with
      | nil => exact ⟨⟨t, hg, hstat⟩, hq, hh, hr⟩
      | cons e rest =>
        rw [hq0] at hq
        have hne : o ≠ e.objId := by
          intro hc
          exact hq (by
            rw [hc]
            exact List.mem_map_of_mem QEntry.objId (List.mem_cons_self e rest))
        refine ⟨⟨t, by rw [updStore_get_ne _ _ _ _ hne]; exact hg, hstat⟩, ?_, hh, ?_⟩
        · intro hc
          exact hq (by simpa using Or.inr (by simpa using hc))
        · intro hc
          rcases List.mem_cons.mp hc with hc | hc
          · exact hne hc
          · exact hr hc
    · rw [if_neg hrun]
      exact ⟨⟨t, hg, hstat⟩, hq, hh, hr⟩
  | workerFinish o2 =>
    show StuckAt (workerFinish s o2) o
    by_cases ho2 : o2 ∈ s.runningTasks
    · have hne : o ≠ o2 := by
        intro hc
        exact hr (hc ▸ ho2)
      cases hg2 : s.store.get? o2 with
      | none =>
        rw [workerFinish_noTask s o2 ho2 hg2]
        exact ⟨⟨t, hg, hstat⟩, hq, hh, hr⟩
      | some t2 =>
        rw [workerFinish_some s o2 t2 ho2 hg2]
        have hstuck1 : StuckAt (periodicResubmit s t2) o := by
          cases ht2 : t2.kind with
          | plain out =>
            simp only [periodicResubmit, ht2]
            exact ⟨⟨t, hg, hstat⟩, hq, hh, hr⟩
          | periodicWrapper i pr mr out =>
            simp only [periodicResubmit, ht2]
            by_cases hrun : s.running
            · rw [if_pos hrun]
              exact stuckAt_scheduleStep ⟨⟨t, hg, hstat⟩, hq, hh, hr⟩ _
            · rw [if_neg hrun]
              exact ⟨⟨t, hg, hstat⟩, hq, hh, hr⟩
        obtain ⟨⟨t1, hg1, hstat1⟩, hq1, hh1, hr1⟩ := hstuck1
        refine ⟨⟨t1, by rw [updStore_get_ne _ _ _ _ hne]; exact hg1, hstat1⟩,
          hq1, hh1, ?_⟩
        rw [periodicResubmit_runningTasks]
        intro hc
        exact hr (List.mem_of_mem_erase hc)
    · rw [workerFinish_notClaimed s o2 ho2]
      exact ⟨⟨t, hg, hstat⟩, hq, hh, hr⟩

theorem stuckAt_foldl {s : SchedState} {o : Nat} (h : StuckAt s o)
    (tr : List SchedAction) : StuckAt (List.foldl step s tr) o := by
  induction tr generalizing s with
  | nil => exact h
  | cons a rest ih => exact ih (stuckAt_step h a)

theorem getResultAux_advance (hist : Nat → Option ScheduledTask) (T : Nat) :
    ∀ (k fuel i : Nat),
    (∀ j, i ≤ j → j < i + k → pollDecision (hist j) = .stillWaiting ∧ ¬ T < j) →
    getResultAux hist (some T) (k + fuel) i = getResultAux hist (some T) fuel (i + k) := by
  intro k
  induction k with
  | zero =>
    intro fuel i _
    simp
  | succ k ih =>
    intro fuel i hskip
    obtain ⟨hpoll, hT⟩ := hskip i (le_refl i) (by omega)
    have hstep : k + 1 + fuel = (k + fuel) + 1 := by omega
    rw [hstep]
    simp only [getResultAux, hpoll]
    rw [if_neg (by simpa using hT)]
    have := ih fuel (i + 1) (by
      intro j hj1 hj2
      exact hskip j (by omega) (by omega))
    rw [this]
    have : i + 1 + k = i + (k + 1) := by omega
    rw [this]

/-- A task view that is still PENDING. -/
def c9pendingTask : ScheduledTask :=
  ⟨-1, 0, "g", .plain (.ok 42), .pending, none, none, 0, 0, 0⟩

/-- The same task, COMPLETED with result 42. -/
def c9doneTask : ScheduledTask :=
  ⟨-1, 0, "g", .plain (.ok 42), .completed, some 42, none, 0, 0, 0⟩

/-- History of a task that becomes terminal at the 6th poll (0.6 s):
strictly after a 0.5 s deadline, but before the poll that would notice
the deadline. -/
def c9hist : Nat → Option ScheduledTask :=
  fun i => if i < 6 then some c9pendingTask else some c9doneTask

/-- History of a task that never becomes terminal. -/
def c9neverDone : Nat → Option ScheduledTask :=
  fun _ => some c9pendingTask

/-- C9 (counterexample): with `timeout` = 5 tenths of a second and a
task that first turns COMPLETED at the poll at 6 tenths, the deadline
elapses strictly before the task reaches a terminal state, yet
`get_task_result` returns the result instead of raising `TimeoutError`:
the loop checks the terminal condition before the deadline and uses a
strict comparison, so the claimed "if and only if" fails. -/
theorem c9_timeout_iff_deadline_false :
    (c9hist 5).map (fun t => t.status) = some TaskStatus.pending ∧
    (c9hist 6).map (fun t => t.status) = some TaskStatus.completed ∧
    getResultAux c9hist (some 5) 10 0 = GetResultOutcome.ret (some 42) := by
  refine ⟨by decide, by decide, by decide⟩

/-- C9 (amended): what the polling loop actually guarantees.  If some
poll `k` within the deadline (`k ≤ T`) observes a settled task after
only unsettled polls, the loop returns that poll's outcome (the result,
or the stored error of a FAILED task); and if every poll up to `T + 1`
observes an unsettled task, the first poll whose elapsed time strictly
exceeds the timeout raises `TimeoutError`.  A task that becomes
terminal between the deadline and the next poll is still returned, not
timed out. -/
theorem c9_get_result_poll_semantics (hist : Nat → Option ScheduledTask)
    (T k fuel : Nat) (d : GetResultOutcome) :
    ((∀ j, j < k → pollDecision (hist j) = .stillWaiting) → k ≤ T → k < fuel →
      pollDecision (hist k) = d → d ≠ .stillWaiting →
      getResultAux hist (some T) fuel 0 = d) ∧
    ((∀ j, j ≤ T + 1 → pollDecision (hist j) = .stillWaiting) → T + 1 < fuel →
      getResultAux hist (some T) fuel 0 = .timedOut) := by
  constructor
  · intro hwait hkT hkf hpoll hd
    obtain ⟨m, rfl⟩ : ∃ m, fuel = k + (m + 1) := ⟨fuel - k - 1, by omega⟩
    rw [getResultAux_advance hist T k (m + 1) 0 (by
      intro j hj1 hj2
      exact ⟨hwait j (by omega), by omega⟩)]
    rw [Nat.zero_add]
    cases d with
    | stillWaiting => exact absurd rfl hd
    | ret v => simp only [getResultAux, hpoll]
    | raiseStored e => simp only [getResultAux, hpoll]
    | timedOut => simp only [getResultAux, hpoll]
  · intro hwait hTf
    obtain ⟨m, rfl⟩ : ∃ m, fuel = (T + 1) + (m + 1) := ⟨fuel - T - 2, by omega⟩
    rw [getResultAux_advance hist T (T + 1) (m + 1) 0 (by
      intro j hj1 hj2
      exact ⟨hwait j (by omega), by omega⟩)]
    rw [Nat.zero_add]
    simp only [getResultAux, hwait (T + 1) (le_refl _)]
    simp

/-- Witness for the amended C9 theorem: with `timeout=10` the history
`c9hist` returns its result at poll 6, and a never-terminal history
with `timeout=5` times out. -/
theorem c9_get_result_poll_semantics_witness :
    getResultAux c9hist (some 10) 20 0 = GetResultOutcome.ret (some 42) ∧
    getResultAux c9neverDone (some 5) 10 0 = GetResultOutcome.timedOut :=
  ⟨(c9_get_result_poll_semantics c9hist 10 6 20 (GetResultOutcome.ret (some 42))).1
      (by decide) (by decide) (by decide) (by decide) (by decide),
   (c9_get_result_poll_semantics c9neverDone 5 0 10 GetResultOutcome.stillWaiting).2
      (by decide) (by decide)⟩

/-- C3: in every reachable scheduler state the ready queue is ordered
so that an entry with a strictly smaller stored `priority` field (that
is, a strictly higher user priority, since `schedule` stores the
negation) sits at a strictly smaller index.  Workers always pop the
head (`workerBegin`), so among simultaneously queued tasks the one with
higher priority is dequeued first regardless of submission order; the
second conjunct ties the entry's key to the task object's own
`priority` field. -/
theorem c3_priority_preempts_arrival (tr : List SchedAction) (i j : Nat)
    (hi : i < (runTrace tr).readyQueue.length)
    (hj : j < (runTrace tr).readyQueue.length)
    (hprio : ((runTrace tr).readyQueue.get ⟨i, hi⟩).prio <
      ((runTrace tr).readyQueue.get ⟨j, hj⟩).prio) :
    i < j ∧
    ∃ t, (runTrace tr).store.get? ((runTrace tr).readyQueue.get ⟨i, hi⟩).objId =
      some t ∧ t.priority = ((runTrace tr).readyQueue.get ⟨i, hi⟩).prio := by
  have hinv := inv_runTrace tr
  have hsorted := List.pairwise_iff_get.mp hinv.qsorted
  constructor
  · by_contra hij
    have hji : j < i ∨ j = i := by omega
    rcases hji with hji | rfl
    · have := hsorted ⟨j, hj⟩ ⟨i, hi⟩ hji
      exact this (Or.inl hprio)
    · omega
  · obtain ⟨t, h1, h2, -⟩ := hinv.qok _ (List.get_mem (runTrace tr).readyQueue i hi)
    exact ⟨t, h1, h2⟩

/-- Witness trace for C3: a NORMAL task submitted before a CRITICAL
task; the CRITICAL entry ends up at index 0. -/
def c3trace : List SchedAction :=
  [.submit ⟨"n", .plain (.ok 1), 1, 0, 0⟩, .submit ⟨"c", .plain (.ok 2), 3, 0, 0⟩]

theorem c3_priority_preempts_arrival_witness :
    (0 : Nat) < 1 ∧
    ∃ t, (runTrace c3trace).store.get?
        ((runTrace c3trace).readyQueue.get ⟨0, by decide⟩).objId = some t ∧
      t.priority = ((runTrace c3trace).readyQueue.get ⟨0, by decide⟩).prio :=
  c3_priority_preempts_arrival c3trace 0 1 (by decide) (by decide) (by decide)

/-- Trace refuting C4: two NORMAL-priority tasks; task `"a"` is
submitted at time 0 with delay 10 (`scheduled_time` 10), task `"b"` at
time 5 with delay 1 (`scheduled_time` 6).  After both promotions the
ready queue holds `b` before `a`, although `a` was submitted first. -/
def c4trace : List SchedAction :=
  [.submit ⟨"a", .plain (.ok 1), 1, 10, 0⟩, .tick 5,
   .submit ⟨"b", .plain (.ok 2), 1, 1, 0⟩, .tick 1, .promote, .tick 4, .promote]

/-- C4 (counterexample): the ready queue tie-break is `scheduled_time`,
not `created_at` (`created_at` is a `compare=False` field), so two
equal-priority tasks are not dequeued in submission order: object 1
(`"b"`, `created_at` 5) is dequeued before object 0 (`"a"`,
`created_at` 0). -/
theorem c4_fifo_by_created_at_false :
    (runTrace c4trace).readyQueue.map QEntry.objId = [1, 0] ∧
    ((runTrace c4trace).store.get? 0).map (fun t => (t.priority, t.created_at)) =
      some (-1, 0) ∧
    ((runTrace c4trace).store.get? 1).map (fun t => (t.priority, t.created_at)) =
      some (-1, 5) := by
  refine ⟨by decide, by decide, by decide⟩

/-- C4 (amended): within equal priority the ready queue dequeues in
ascending `scheduled_time` order (which equals submission order for
`delay=0` tasks, whose `scheduled_time` is their submission instant,
but not in general for delayed tasks). -/
theorem c4_equal_priority_scheduled_time_order (tr : List SchedAction)
    (i j : Nat) (hi : i < (runTrace tr).readyQueue.length)
    (hj : j < (runTrace tr).readyQueue.length) (hij : i ≤ j)
    (hprio : ((runTrace tr).readyQueue.get ⟨i, hi⟩).prio =
      ((runTrace tr).readyQueue.get ⟨j, hj⟩).prio) :
    ((runTrace tr).readyQueue.get ⟨i, hi⟩).stime ≤
      ((runTrace tr).readyQueue.get ⟨j, hj⟩).stime ∧
    ∃ t, (runTrace tr).store.get? ((runTrace tr).readyQueue.get ⟨i, hi⟩).objId =
      some t ∧ t.scheduled_time = ((runTrace tr).readyQueue.get ⟨i, hi⟩).stime := by
  have hinv := inv_runTrace tr
  have hsorted := List.pairwise_iff_get.mp hinv.qsorted
  constructor
  · rcases Nat.lt_or_ge i j with hlt | hge
    · have := hsorted ⟨i, hi⟩ ⟨j, hj⟩ hlt
      unfold keyLt QEntry.key at this
      simp only [not_or, not_and] at this
      rcases this with ⟨h1, h2⟩
      by_contra hc
      exact (h2 (by omega)) (by omega)
    · have hij' : i = j := by omega
      subst hij'
      omega
  · obtain ⟨t, h1, -, h3, -⟩ := hinv.qok _ (List.get_mem (runTrace tr).readyQueue i hi)
    exact ⟨t, h1, h3⟩

/-- Witness trace for the amended C4: two equal-priority `delay=0`
tasks submitted one tick apart. -/
def c4btrace : List SchedAction :=
  [.submit ⟨"x", .plain (.ok 1), 1, 0, 0⟩, .tick 1, .submit ⟨"y", .plain (.ok 2), 1, 0, 0⟩]

theorem c4_equal_priority_scheduled_time_order_witness :
    ((runTrace c4btrace).readyQueue.get ⟨0, by decide⟩).stime ≤
      ((runTrace c4btrace).readyQueue.get ⟨1, by decide⟩).stime ∧
    ∃ t, (runTrace c4btrace).store.get?
        ((runTrace c4btrace).readyQueue.get ⟨0, by decide⟩).objId = some t ∧
      t.scheduled_time = ((runTrace c4btrace).readyQueue.get ⟨0, by decide⟩).stime :=
  c4_equal_priority_scheduled_time_order c4btrace 0 1 (by decide) (by decide)
    (by decide) (by decide)

/-- C5: a task is never started early.  In every reachable state, any
task object whose `scheduled_time` (submission time plus delay) is
still in the future is neither RUNNING nor COMPLETED nor FAILED; and if
the trace never calls `cancel_task`, its status is exactly PENDING.
The delay heap only releases a task once the promotion loop observes
`scheduled_time <= now`. -/
theorem c5_no_early_start (tr : List SchedAction) (o : Nat)
    (t : ScheduledTask) (hg : (runTrace tr).store.get? o = some t)
    (hnow : (runTrace tr).now < t.scheduled_time) :
    (t.status ≠ TaskStatus.running ∧ t.status ≠ TaskStatus.completed ∧
      t.status ≠ TaskStatus.failed) ∧
    ((∀ id, SchedAction.cancel id ∉ tr) → t.status = TaskStatus.pending) := by
  have hinv := inv_runTrace tr
  have hmain : t.status ≠ TaskStatus.running ∧ t.status ≠ TaskStatus.completed ∧
      t.status ≠ TaskStatus.failed := by
    refine ⟨?_, ?_, ?_⟩ <;> intro hc <;>
      exact absurd (hinv.started o t hg (by rw [hc]; tauto)) (by omega)
  refine ⟨hmain, fun hnc => ?_⟩
  have hncanc := noCancelled_runTrace tr hnc o t hg
  obtain ⟨h1, h2, h3⟩ := hmain
  cases hs : t.status with
  | pending => rfl
  | running => exact absurd hs h1
  | completed => exact absurd hs h2
  | failed => exact absurd hs h3
  | cancelled => exact absurd hs hncanc

/-- Witness trace for C5: a task submitted with delay 5, observed at
time 2. -/
def c5trace : List SchedAction :=
  [.submit ⟨"w", .plain (.ok 1), 1, 5, 0⟩, .tick 2]

/-- The task record created by `c5trace`. -/
def c5task : ScheduledTask :=
  ⟨-1, 5, "w", .plain (.ok 1), .pending, none, none, 0, 0, 0⟩

theorem c5_no_early_start_witness :
    (c5task.status ≠ TaskStatus.running ∧ c5task.status ≠ TaskStatus.completed ∧
      c5task.status ≠ TaskStatus.failed) ∧ c5task.status = TaskStatus.pending := by
  have h := c5_no_early_start c5trace 0 c5task (by decide) (by decide)
  exact ⟨h.1, h.2 (by
    intro id
    simp [c5trace])⟩

/-- Trace refuting C6: a task with `max_retries=2` whose callable
raises; one execution attempt. -/
def c6trace : List SchedAction :=
  [.submit ⟨"r", .plain (.raiseExc 3), 1, 0, 2⟩, .workerBegin, .workerFinish 0]

/-- C6 (counterexample): after a failing attempt that still has retries
left, `run` has stored the exception in `error` and reset the status to
PENDING, so a reachable state has `error` populated while the status is
PENDING — the claimed "error is set if and only if status is FAILED"
is false. -/
theorem c6_error_iff_failed_false :
    ((runTrace c6trace).store.get? 0).map (fun t => (t.status, t.error, t.result)) =
      some (TaskStatus.pending, some 3, none) := by
  decide

/-- C6 (amended): the outcome slots satisfy: a non-`None` `result`
implies COMPLETED; FAILED implies `error` is set; and a set `error`
implies the status is PENDING (a retry is outstanding), FAILED, or
CANCELLED (a retry-pending task that was later cancelled) — but never
RUNNING or COMPLETED.  The unrestricted "error iff FAILED" of the claim
does not hold (see the counterexample). -/
theorem c6_outcome_slots (tr : List SchedAction) (o : Nat)
    (t : ScheduledTask) (hg : (runTrace tr).store.get? o = some t) :
    (t.result ≠ none → t.status = TaskStatus.completed) ∧
    (t.status = TaskStatus.failed → t.error ≠ none) ∧
    (t.error ≠ none → t.status = TaskStatus.pending ∨
      t.status = TaskStatus.failed ∨ t.status = TaskStatus.cancelled) :=
  (inv_runTrace tr).slots o t hg

/-- The task record reached by `c6trace`. -/
def c6task : ScheduledTask :=
  ⟨-1, 0, "r", .plain (.raiseExc 3), .pending, none, some 3, 1, 2, 0⟩

theorem c6_outcome_slots_witness :
    c6task.status = TaskStatus.pending ∨ c6task.status = TaskStatus.failed ∨
      c6task.status = TaskStatus.cancelled :=
  (c6_outcome_slots c6trace 0 c6task (by decide)).2.2 (by decide)

/-- Trace for C1: a task with `max_retries=1` whose callable always
raises, executed once by a worker. -/
def c1trace : List SchedAction :=
  [.submit ⟨"t", .plain (.raiseExc 9), 1, 0, 1⟩, .workerBegin, .workerFinish 0]

/-- C1 (code bug): after the single failing attempt the task is back to
PENDING with `retries = 1`, but both queues are empty — `run` returned
`None` and `_worker_loop` never re-inserts it.  Whatever actions follow
(including arbitrary further submissions, promotions and worker steps),
the task object never becomes FAILED and is never executed again: it is
stuck PENDING (or CANCELLED, if later cancelled) forever.  The claim's
K+1 attempts ending in FAILED never happen for K >= 1. -/
theorem c1_retry_never_requeued :
    (((runTrace c1trace).store.get? 0).map
        (fun t => (t.status, t.retries, t.max_retries, t.error)) =
      some (TaskStatus.pending, 1, 1, some 9) ∧
      (runTrace c1trace).readyQueue = [] ∧
      (runTrace c1trace).delayHeap = [] ∧
      (runTrace c1trace).runningTasks = []) ∧
    ∀ (cont : List SchedAction) (t : ScheduledTask),
      (runTrace (c1trace ++ cont)).store.get? 0 = some t →
      t.status ≠ TaskStatus.failed ∧ t.status ≠ TaskStatus.running := by
  constructor
  · refine ⟨by decide, by decide, by decide, by decide⟩
  · intro cont t hg
    have hstuck0 : StuckAt (runTrace c1trace) 0 := by
      refine ⟨⟨⟨-1, 0, "t", .plain (.raiseExc 9), .pending, none, some 9, 1, 1, 0⟩,
        by decide, Or.inl rfl⟩, by decide, by decide, by decide⟩
    have hstuck : StuckAt (runTrace (c1trace ++ cont)) 0 := by
      rw [runTrace, List.foldl_append]
      exact stuckAt_foldl hstuck0 cont
    obtain ⟨⟨t', hg', hstat'⟩, -⟩ := hstuck
    rw [hg] at hg'
    cases hg'
    rcases hstat' with hs | hs <;> rw [hs] <;> exact ⟨by decide, by decide⟩

/-- The stranded task record reached by `c1trace`. -/
def c1task : ScheduledTask :=
  ⟨-1, 0, "t", .plain (.raiseExc 9), .pending, none, some 9, 1, 1, 0⟩

theorem c1_retry_never_requeued_witness :
    c1task.status ≠ TaskStatus.failed ∧ c1task.status ≠ TaskStatus.running :=
  c1_retry_never_requeued.2 [] c1task (by decide)

/-- Trace for C2: one `delay=0` task, sitting in the ready queue. -/
def c2trace : List SchedAction :=
  [.submit ⟨"a", .plain (.ok 7), 1, 0, 0⟩]

/-- C2 (code bug): cancelling the task while it waits in the ready
queue returns `true` and sets CANCELLED, but `_worker_loop` pops tasks
without any status check and `run` overwrites the status
unconditionally, so the "terminal" CANCELLED state is later replaced by
RUNNING and then COMPLETED.  The second half of the claim does hold:
cancelling a task already claimed by a worker (status RUNNING) returns
`false` and leaves it RUNNING. -/
theorem c2_cancel_not_terminal :
    (cancelTask (runTrace c2trace) "a").1 = true ∧
    getTaskStatus (cancelTask (runTrace c2trace) "a").2 "a" =
      some TaskStatus.cancelled ∧
    getTaskStatus (step (step (cancelTask (runTrace c2trace) "a").2
      SchedAction.workerBegin) (SchedAction.workerFinish 0)) "a" =
      some TaskStatus.completed ∧
    (cancelTask (step (runTrace c2trace) SchedAction.workerBegin) "a").1 = false ∧
    getTaskStatus (cancelTask (step (runTrace c2trace) SchedAction.workerBegin) "a").2
      "a" = some TaskStatus.running := by
  refine ⟨by decide, by decide, by decide, by decide, by decide⟩

/-- Trace for C7: a periodic task with interval 1, promoted into the
ready queue at time 1. -/
def c7trace : List SchedAction :=
  [.submitPeriodic "p" 1 1 0 (.ok 5), .tick 1, .promote]

/-- C7 (code bug): cancelling the periodic task while its instance
waits in the ready queue returns `true` and sets CANCELLED, yet a
worker still runs the instance (no status check in `_worker_loop`), and
the `periodic_wrapper`'s `finally` block re-submits the same `task_id`:
afterwards the task map reports the id as PENDING again and a fresh
instance sits in the delay heap, scheduled for time 2.  Cancellation
did not prevent future rescheduling. -/
theorem c7_cancelled_periodic_reschedules :
    (cancelTask (runTrace c7trace) "p").1 = true ∧
    getTaskStatus (cancelTask (runTrace c7trace) "p").2 "p" =
      some TaskStatus.cancelled ∧
    getTaskStatus (step (step (cancelTask (runTrace c7trace) "p").2
      SchedAction.workerBegin) (SchedAction.workerFinish 0)) "p" =
      some TaskStatus.pending ∧
    (step (step (cancelTask (runTrace c7trace) "p").2 SchedAction.workerBegin)
      (SchedAction.workerFinish 0)).delayHeap =
      [⟨2, -1, 1⟩] := by
  refine ⟨by decide, by decide, by decide, by decide⟩

/-- Trace for C8: one task, cancelled, so its stored `result` is the
Python `None`. -/
def c8trace : List SchedAction :=
  [.submit ⟨"a", .plain (.ok 7), 1, 0, 0⟩, .cancel "a"]

/-- C8 (counterexample): no `TaskNotFoundError` exists anywhere in the
module.  `get_task_status` returns `None` for the unknown id `"b"`
(which is at least distinguishable from every status), but
`get_task_result` returns `None` for the unknown id — exactly the same
observable value it returns for the known, cancelled task `"a"` — so
the not-found case of result retrieval is not distinguishable from a
valid outcome. -/
theorem c8_not_found_indistinguishable :
    getTaskStatus (runTrace c8trace) "b" = none ∧
    getTaskResultOnce (runTrace c8trace) "b" = GetResultOutcome.ret none ∧
    getTaskStatus (runTrace c8trace) "a" = some TaskStatus.cancelled ∧
    getTaskResultOnce (runTrace c8trace) "a" = GetResultOutcome.ret none := by
  refine ⟨by decide, by decide, by decide, by decide⟩

/-- C8 (amended): for a task id absent from the task map,
`get_task_status` returns `None` — a value distinct from every
`TaskStatus` — and `get_task_result` immediately returns `None` rather
than raising any error; no `TaskNotFoundError` type exists in the
scheduler. -/
theorem c8_unknown_id_returns_none (s : SchedState) (id : String)
    (h : lookupTask s id = none) :
    getTaskStatus s id = none ∧
    getTaskResultOnce s id = GetResultOutcome.ret none := by
  constructor
  · simp [getTaskStatus, h]
  · simp [getTaskResultOnce, h, pollDecision]

theorem c8_unknown_id_returns_none_witness :
    getTaskStatus initState "x" = none ∧
    getTaskResultOnce initState "x" = GetResultOutcome.ret none :=
  c8_unknown_id_returns_none initState "x" (by decide)

/-- C10: `schedule` performs no validation on `delay`: with any
`delay < 0` it silently sets `scheduled_time = now + delay` (a time in
the past), records the task in the task map, leaves the delay heap
untouched and pushes the task straight into the ready queue through the
same `delay <= 0` branch a `delay = 0` task takes. -/
theorem c10_negative_delay_accepted (s : SchedState) (p : SubmitParams)
    (hd : p.delay < 0) :
    (scheduleStep s p).delayHeap = s.delayHeap ∧
    lookupTask (scheduleStep s p) p.task_id = some s.store.length ∧
    (scheduleStep s p).store.get? s.store.length = some (newTask s p) ∧
    (newTask s p).status = TaskStatus.pending ∧
    (newTask s p).scheduled_time = s.now + p.delay ∧
    (newTask s p).scheduled_time < s.now ∧
    (⟨-p.priority, s.now + p.delay, s.store.length⟩ : QEntry) ∈
      (scheduleStep s p).readyQueue := by
  have hd' : p.delay ≤ 0 := le_of_lt hd
  rw [scheduleStep_ready s p hd']
  refine ⟨rfl, ?_, get?_concat_self s.store (newTask s p), rfl, rfl, ?_, ?_⟩
  · simp [lookupTask]
  · show s.now + p.delay < s.now
    omega
  · exact (mem_sortedInsert QEntry.key _ s.readyQueue _).mpr (Or.inl rfl)

/-- Concrete submit parameters with a negative delay. -/
def c10params : SubmitParams := ⟨"neg", .plain (.ok 1), 2, -3, 0⟩

theorem c10_negative_delay_accepted_witness :
    (scheduleStep initState c10params).delayHeap = initState.delayHeap ∧
    lookupTask (scheduleStep initState c10params) c10params.task_id =
      some initState.store.length ∧
    (scheduleStep initState c10params).store.get? initState.store.length =
      some (newTask initState c10params) ∧
    (newTask initState c10params).status = TaskStatus.pending ∧
    (newTask initState c10params).scheduled_time =
      initState.now + c10params.delay ∧
    (newTask initState c10params).scheduled_time < initState.now ∧
    (⟨-c10params.priority, initState.now + c10params.delay,
      initState.store.length⟩ : QEntry) ∈
      (scheduleStep initState c10params).readyQueue :=
  c10_negative_delay_accepted initState c10params (by decide)

/-- Trace refuting the literal C5: a task submitted with delay 5 and
cancelled immediately. -/
def c5ctrace : List SchedAction :=
  [.submit ⟨"z", .plain (.ok 1), 1, 5, 0⟩, .cancel "z"]

/-- C5 (counterexample to the literal statement): `cancel_task` moves a
delayed task out of PENDING (to CANCELLED) at time 0, strictly before
its `scheduled_time` 5, so "never transitioned out of PENDING before
`submit_time + D`" is false as stated; only the start of execution is
impossible before the scheduled time (see the amended theorem). -/
theorem c5_cancel_moves_out_of_pending_early :
    (runTrace c5ctrace).now = 0 ∧
    ((runTrace c5ctrace).store.get? 0).map (fun t => (t.scheduled_time, t.status)) =
      some (5, TaskStatus.cancelled) := by
  refine ⟨by decide, by decide⟩
